import Mathlib

/-!
Verification of the elliptic-curve arithmetic kernel: affine point
addition/doubling, modular inverse, double-and-add public-key derivation,
the keypair holder, and the concrete secp256k1 parameter set.

The Rust source is shallowly embedded: `BigUint` becomes `Nat`, the
`CurvePoint` enum becomes an inductive type, the `Curve` trait becomes a
record of its accessors, and the double-and-add `for` loop becomes a
structurally recursive function on the shifted scalar (the shifted scalar
itself bounds the number of remaining iterations, which equals the bit
length of the scalar exactly as in the source loop).
-/

/-- The `CurvePoint` enum: an affine point with arbitrary-precision
non-negative coordinates, or the point at infinity. -/
inductive CurvePoint where
  | Affine (x y : Nat)
  | Infinity
deriving DecidableEq

/-- `CurvePoint::is_infinity`. -/
def CurvePoint.is_infinity : CurvePoint → Bool
  | CurvePoint.Infinity => true
  | CurvePoint.Affine _ _ => false

/-- The `Curve` trait, embedded as a record of its six accessors. -/
structure CurveData where
  prime_modulus : Nat
  a : Nat
  b : Nat
  generator_point : CurvePoint
  order : Nat
  identity : CurvePoint
deriving DecidableEq

/-- `mod_sub(a, b, p)`: `((a mod p) + p - (b mod p)) mod p`. -/
def mod_sub (a b p : Nat) : Nat :=
  ((a % p) + p - (b % p)) % p

/-- `mod_inv(value, modulus)`: `value.modpow(modulus - 2, modulus)`. -/
def mod_inv (value modulus : Nat) : Nat :=
  value ^ (modulus - 2) % modulus

/-- The slope numerator computed by `add_two_points` once the degenerate
cases are ruled out: the doubling branch (`x1 = x2 ∧ y1 = y2`) uses
`(3 * x1.modpow(2, p) + a) % p`, the addition branch uses `mod_sub(y2, y1, p)`. -/
def slope_numerator (c : CurveData) (x1 y1 x2 y2 : Nat) : Nat :=
  if x1 = x2 ∧ y1 = y2 then
    (3 * (x1 ^ 2 % c.prime_modulus) + c.a) % c.prime_modulus
  else
    mod_sub y2 y1 c.prime_modulus

/-- The slope denominator computed by `add_two_points` once the degenerate
cases are ruled out: `(2 * y1) % p` in the doubling branch, and
`mod_sub(x2, x1, p)` in the addition branch. -/
def slope_denominator (c : CurveData) (x1 y1 x2 y2 : Nat) : Nat :=
  if x1 = x2 ∧ y1 = y2 then
    (2 * y1) % c.prime_modulus
  else
    mod_sub x2 x1 c.prime_modulus

/-- `add_two_points(first, second, curve)`: affine point addition with all
degenerate cases, as in the source.  The identity checks are the two
`is_infinity` early returns; the `y1 = 0` check sits inside the doubling
branch in the source, before any slope computation, which is the same
control flow expressed here. -/
def add_two_points (first second : CurvePoint) (c : CurveData) : CurvePoint :=
  match first, second with
  | CurvePoint.Infinity, _ => second
  | _, CurvePoint.Infinity => first
  | CurvePoint.Affine x1 y1, CurvePoint.Affine x2 y2 =>
    if x1 = x2 ∧ y1 ≠ y2 then CurvePoint.Infinity
    else if x1 = x2 ∧ y1 = y2 ∧ y1 = 0 then CurvePoint.Infinity
    else
      let p := c.prime_modulus
      let numerator := slope_numerator c x1 y1 x2 y2
      let denominator := slope_denominator c x1 y1 x2 y2
      let denom_inv := mod_inv denominator p
      let lambda := numerator * denom_inv % p
      let lambda_sq := lambda ^ 2 % p
      let x3 := mod_sub (mod_sub lambda_sq x1 p) x2 p
      let t1 := mod_sub x1 x3 p
      let t2 := lambda * t1 % p
      let y3 := mod_sub t2 y1 p
      CurvePoint.Affine x3 y3

/-- The double-and-add loop of `calculate_public_key`.  The source iterates
`i` over `0..secret_key.bits()`, testing bit `i` of the key and doubling
`current` each round; here the key is shifted right each round instead, and
`fuel` bounds the remaining rounds.  Starting from `fuel = k` the recursion
stops exactly when the shifted key reaches zero, i.e. after `bits(k)`
rounds, performing the same sequence of point operations on `result` as
the source loop. -/
def pubkey_loop (c : CurveData) (fuel k : Nat) (result current : CurvePoint) :
    CurvePoint :=
  match fuel with
  | 0 => result
  | f + 1 =>
    if k = 0 then result
    else
      pubkey_loop c f (k / 2)
        (if k % 2 = 1 then add_two_points result current c else result)
        (add_two_points current current c)

/-- `Curve::calculate_public_key(secret_key)`: double-and-add scalar
multiplication of the generator, starting from the identity. -/
def calculate_public_key (c : CurveData) (secret_key : Nat) : CurvePoint :=
  pubkey_loop c secret_key secret_key c.identity c.generator_point

/-- The `Signature<T>` keypair holder: a curve instance, a secret scalar
and a public-key field (a scalar in the source, not a point). -/
structure Signature where
  curve : CurveData
  secret : Nat
  public_key : Nat
deriving DecidableEq

/-- `Signature::generate_keypair`.  The source unconditionally assigns
`self.secret = self.curve.generate_secret_key()` and touches nothing else
(the public-key derivation line is commented out).  The random draw made
by `generate_secret_key` is modelled by the explicit argument `fresh`. -/
def generate_keypair (s : Signature) (fresh : Nat) : Signature :=
  { s with secret := fresh }

/-- The `Secp256k1` parameter set.  The source feeds decimal digit strings
to `parse_bytes(_, 16)`, i.e. it parses them with radix 16; the numerals
below are therefore written as hexadecimal literals made of those exact
digit strings, which is the value the source actually produces. -/
def Secp256k1 : CurveData :=
  { prime_modulus :=
      0x115792089237316195423570985008687907853269984665640564039457584007908834671663
    a := 0
    b := 7
    generator_point := CurvePoint.Affine
      0x55066263022277343669578718895168534326250603453777594175500187360389116729240
      0x32670510020758816978083085130507043184471273380659243275938904335757337482424
    order :=
      0x115792089237316195423570985008687907852837564279074904382605163141518161494337
    identity := CurvePoint.Infinity }

/-- Modelled from the spec: the `k`-fold repeated `add` of a point with
itself ("`k=3` equals `add(add(G,G), G)`"), the reference side of the
scalar-multiplication consistency claim.  `0` maps to `Infinity`, so that
`spec_repeated_add c g 1 = add(Infinity, g) = g`. -/
def spec_repeated_add (c : CurveData) (g : CurvePoint) : Nat → CurvePoint
  | 0 => CurvePoint.Infinity
  | k + 1 => add_two_points (spec_repeated_add c g k) g c

/-- The toy test curve of the source's test module and of the spec's
regression vectors: `p = 17`, `a = 2`, `b = 2`; the point `(5, 1)` lies on
it and is taken as generator here. -/
def c17 : CurveData :=
  { prime_modulus := 17, a := 2, b := 2,
    generator_point := CurvePoint.Affine 5 1, order := 19,
    identity := CurvePoint.Infinity }

/-- A curve instance over the prime field with two elements:
`y² = x³ + x + 1 (mod 2)`, generator `(0, 1)` (which lies on the curve,
with reduced coordinates), group order 3, `4a³ + 27b² ≡ 1 ≢ 0 (mod 2)`. -/
def cex2 : CurveData :=
  { prime_modulus := 2, a := 1, b := 1,
    generator_point := CurvePoint.Affine 0 1, order := 3,
    identity := CurvePoint.Infinity }

/-- The short Weierstrass curve over `ZMod p` determined by a curve
instance: `a₁ = a₂ = a₃ = 0`, `a₄ = a`, `a₆ = b`. -/
def Wof (c : CurveData) : WeierstrassCurve.Affine (ZMod c.prime_modulus) :=
  { a₁ := 0, a₂ := 0, a₃ := 0,
    a₄ := (c.a : ZMod c.prime_modulus), a₆ := (c.b : ZMod c.prime_modulus) }

/-- Correspondence between the embedded `CurvePoint` representation and the
nonsingular points of the associated Weierstrass curve: `Infinity`
corresponds to the zero point, and an affine point with coordinates reduced
below `p` corresponds to the nonsingular point at the cast coordinates. -/
inductive Corr (c : CurveData) : CurvePoint → (Wof c).Point → Prop where
  | infinity : Corr c CurvePoint.Infinity WeierstrassCurve.Affine.Point.zero
  | affine (x y : Nat) (hx : x < c.prime_modulus) (hy : y < c.prime_modulus)
      (h : (Wof c).Nonsingular (x : ZMod c.prime_modulus) (y : ZMod c.prime_modulus)) :
      Corr c (CurvePoint.Affine x y) (WeierstrassCurve.Affine.Point.some h)

/-- Reads a nonsingular Weierstrass point back as an embedded `CurvePoint`
with coordinates reduced below `p`; the inverse direction of `Corr`. -/
def pointToCurve {c : CurveData} : (Wof c).Point → CurvePoint
  | WeierstrassCurve.Affine.Point.zero => CurvePoint.Infinity
  | @WeierstrassCurve.Affine.Point.some _ _ _ x y _ => CurvePoint.Affine x.val y.val

/-! ## Basic arithmetic lemmas -/

lemma mod_sub_lt (a b p : Nat) (hp : 0 < p) : mod_sub a b p < p :=
  Nat.mod_lt _ hp

lemma natCast_mod_sub (p a b : Nat) (hp : 0 < p) :
    ((mod_sub a b p : Nat) : ZMod p) = (a : ZMod p) - (b : ZMod p) := by
  have hle : b % p ≤ a % p + p := le_trans (Nat.mod_lt _ hp).le (Nat.le_add_left _ _)
  rw [mod_sub, ZMod.natCast_mod, Nat.cast_sub hle]
  push_cast [ZMod.natCast_mod, ZMod.natCast_self]
  ring

lemma natCast_inj_of_lt {p x y : Nat} (hx : x < p) (hy : y < p)
    (h : (x : ZMod p) = (y : ZMod p)) : x = y := by
  haveI : NeZero p := ⟨(Nat.pos_of_ne_zero fun h0 => by subst h0; exact Nat.not_lt_zero _ hx).ne'⟩
  calc x = (x : ZMod p).val := (ZMod.val_natCast_of_lt hx).symm
    _ = (y : ZMod p).val := by rw [h]
    _ = y := ZMod.val_natCast_of_lt hy

/-! ## Claim theorems: keypair holder and parameter set -/

/-- C3: `generate_keypair` never writes the public-key field, so after the
call the state carries a (fresh) secret with an untouched public key; the
claimed invariant `public_key = secret · G` is not established by the code. -/
theorem generate_keypair_leaves_public_key_unset
    (s : Signature) (fresh : Nat) :
    (generate_keypair s fresh).public_key = s.public_key ∧
      (generate_keypair s fresh).secret = fresh :=
  ⟨rfl, rfl⟩

/-- C9: `generate_keypair` unconditionally overwrites the secret with the
fresh draw, even when a secret is already set: on a state with secret 5 the
call installs the new draw 7. -/
theorem generate_keypair_overwrites_secret :
    (generate_keypair { curve := c17, secret := 5, public_key := 0 } 7).secret = 7 ∧
      (5 : Nat) ≠ 7 :=
  ⟨rfl, by decide⟩

/-- C10: the `Secp256k1` parameter set does not supply a 256-bit prime
modulus: the value returned by `prime_modulus()` (decimal digit strings are
parsed with radix 16 in the source) is at least `2^256` and is divisible by
19, hence not prime. -/
theorem secp256k1_modulus_wrong :
    2 ^ 256 ≤ Secp256k1.prime_modulus ∧
      Secp256k1.prime_modulus % 19 = 0 ∧
      ¬ Nat.Prime Secp256k1.prime_modulus := by
  refine ⟨by decide, by decide, fun hpr => ?_⟩
  have h19 : (19 : Nat) ∣ Secp256k1.prime_modulus := Nat.dvd_of_mod_eq_zero (by decide)
  rcases (Nat.Prime.eq_one_or_self_of_dvd hpr 19 h19) with h | h
  · exact absurd h (by decide)
  · exact absurd h (by decide)

/-! ## Claim theorems: degenerate cases of point addition -/

/-- C6: `Infinity` is a two-sided identity for `add_two_points`: adding the
point at infinity on either side returns the other input unchanged. -/
theorem add_two_points_identity_law (c : CurveData) (P : CurvePoint) :
    add_two_points P CurvePoint.Infinity c = P ∧
      add_two_points CurvePoint.Infinity P c = P := by
  cases P <;> exact ⟨rfl, rfl⟩

/-- C5: doubling an affine point whose y-coordinate is zero yields the
point at infinity. -/
theorem add_two_points_double_y_zero (c : CurveData) (x : Nat) :
    add_two_points (CurvePoint.Affine x 0) (CurvePoint.Affine x 0) c =
      CurvePoint.Infinity := by
  simp [add_two_points]

/-! ## Claim theorems: slope formulas, inverse pairs, denominators, inverses -/

/-- C1: when no degenerate case applies, `add_two_points` returns the
affine point `x₃ = (λ² − x₁ − x₂) mod p`, `y₃ = (λ·(x₁ − x₃) − y₁) mod p`,
with `λ = (3·x₁² + a)·(2·y₁)⁻¹ mod p` in the doubling branch and
`λ = (y₂ − y₁)·(x₂ − x₁)⁻¹ mod p` in the addition branch, all subtractions
being `mod_sub` and the inverse being `mod_inv`. -/
theorem add_two_points_slope_branch_formulas
    (c : CurveData) (x1 y1 x2 y2 : Nat)
    (hx1 : x1 < c.prime_modulus) (hy1 : y1 < c.prime_modulus)
    (hx2 : x2 < c.prime_modulus) (hy2 : y2 < c.prime_modulus)
    (hvert : ¬(x1 = x2 ∧ y1 ≠ y2))
    (hzero : ¬(x1 = x2 ∧ y1 = y2 ∧ y1 = 0)) :
    add_two_points (CurvePoint.Affine x1 y1) (CurvePoint.Affine x2 y2) c =
      (let p := c.prime_modulus
       let lam :=
         if x1 = x2 ∧ y1 = y2 then
           (3 * (x1 ^ 2 % p) + c.a) % p * mod_inv ((2 * y1) % p) p % p
         else
           mod_sub y2 y1 p * mod_inv (mod_sub x2 x1 p) p % p
       let x3 := mod_sub (mod_sub (lam ^ 2 % p) x1 p) x2 p
       CurvePoint.Affine x3 (mod_sub (lam * mod_sub x1 x3 p % p) y1 p)) := by
  by_cases hd : x1 = x2 ∧ y1 = y2
  · obtain ⟨hx, hy⟩ := hd
    subst hx
    subst hy
    have hy0 : y1 ≠ 0 := fun h => hzero ⟨rfl, rfl, h⟩
    simp [add_two_points, slope_numerator, slope_denominator, hy0]
  · simp [add_two_points, slope_numerator, slope_denominator, hvert, hzero, hd]

/-- Witness for C1 at the spec's regression vector `P = (5,1)`, `Q = (6,3)`
on the toy curve `p = 17`, `a = 2`, `b = 2`. -/
theorem add_two_points_slope_branch_formulas_witness :
    add_two_points (CurvePoint.Affine 5 1) (CurvePoint.Affine 6 3) c17 =
      CurvePoint.Affine 10 6 := by
  rw [add_two_points_slope_branch_formulas c17 5 1 6 3 (by decide) (by decide)
    (by decide) (by decide) (by decide) (by decide)]
  decide

/-- C4: if two affine points share the x-coordinate but have different
y-coordinates, `add_two_points` returns `Infinity`; in particular, for an
odd prime modulus, an affine point with reduced coordinates and `y ≠ 0`
cancels against `(x, p − y mod p)`. -/
theorem add_two_points_inverse_pair (c : CurveData) :
    (∀ x1 y1 x2 y2 : Nat, x1 = x2 → y1 ≠ y2 →
        add_two_points (CurvePoint.Affine x1 y1) (CurvePoint.Affine x2 y2) c =
          CurvePoint.Infinity) ∧
    (∀ x y : Nat, Nat.Prime c.prime_modulus → c.prime_modulus % 2 = 1 →
        x < c.prime_modulus → y < c.prime_modulus → y ≠ 0 →
        add_two_points (CurvePoint.Affine x y)
            (CurvePoint.Affine x ((c.prime_modulus - y) % c.prime_modulus)) c =
          CurvePoint.Infinity) := by
  constructor
  · intro x1 y1 x2 y2 hx hy
    subst hx
    simp [add_two_points, hy]
  · intro x y hp hodd hx hy hy0
    have hlt : c.prime_modulus - y < c.prime_modulus := by omega
    have hne : y ≠ (c.prime_modulus - y) % c.prime_modulus := by
      rw [Nat.mod_eq_of_lt hlt]
      omega
    simp [add_two_points, hne]

/-- Witness for C4 on the toy curve: `(3,5) + (3, (17−5) mod 17) = Infinity`. -/
theorem add_two_points_inverse_pair_witness :
    add_two_points (CurvePoint.Affine 3 5)
        (CurvePoint.Affine 3 ((c17.prime_modulus - 5) % c17.prime_modulus)) c17 =
      CurvePoint.Infinity :=
  (add_two_points_inverse_pair c17).2 3 5 (by decide) (by decide) (by decide)
    (by decide) (by decide)

/-- C7: whenever `add_two_points` reaches a slope computation (no
degenerate case applies) over an odd prime modulus with reduced input
coordinates, the denominator handed to `mod_inv` is nonzero modulo `p`. -/
theorem slope_denominator_nonzero (c : CurveData) (x1 y1 x2 y2 : Nat)
    (hp : Nat.Prime c.prime_modulus) (hodd : c.prime_modulus % 2 = 1)
    (hx1 : x1 < c.prime_modulus) (hy1 : y1 < c.prime_modulus)
    (hx2 : x2 < c.prime_modulus) (hy2 : y2 < c.prime_modulus)
    (hvert : ¬(x1 = x2 ∧ y1 ≠ y2))
    (hzero : ¬(x1 = x2 ∧ y1 = y2 ∧ y1 = 0)) :
    slope_denominator c x1 y1 x2 y2 % c.prime_modulus ≠ 0 := by
  have hp2 : 2 ≤ c.prime_modulus := hp.two_le
  have hp3 : 2 < c.prime_modulus := by omega
  by_cases hx : x1 = x2
  · have hy : y1 = y2 := by
      by_contra h
      exact hvert ⟨hx, h⟩
    have hy0 : y1 ≠ 0 := fun h => hzero ⟨hx, hy, h⟩
    unfold slope_denominator
    rw [if_pos (And.intro hx hy), Nat.mod_mod_of_dvd _ dvd_rfl]
    intro h
    rcases (Nat.Prime.dvd_mul hp).mp (Nat.dvd_of_mod_eq_zero h) with h2 | h2
    · exact absurd (Nat.le_of_dvd (by omega) h2) (by omega)
    · exact absurd (Nat.le_of_dvd (Nat.pos_of_ne_zero hy0) h2) (by omega)
  · have hcond : ¬(x1 = x2 ∧ y1 = y2) := fun hcc => hx hcc.1
    unfold slope_denominator
    rw [if_neg hcond]
    intro h
    have h0 : mod_sub x2 x1 c.prime_modulus = 0 := by
      have := mod_sub_lt x2 x1 c.prime_modulus (by omega)
      rwa [Nat.mod_eq_of_lt this] at h
    have hcast : ((mod_sub x2 x1 c.prime_modulus : Nat) : ZMod c.prime_modulus) = 0 := by
      rw [h0]
      simp
    rw [natCast_mod_sub _ _ _ (by omega), sub_eq_zero] at hcast
    exact hx (natCast_inj_of_lt hx2 hx1 hcast).symm

/-- Witness for C7 in the addition branch at `(5,1)`, `(6,3)` over `p = 17`. -/
theorem slope_denominator_nonzero_witness :
    slope_denominator c17 5 1 6 3 % c17.prime_modulus ≠ 0 :=
  slope_denominator_nonzero c17 5 1 6 3 (by decide) (by decide) (by decide)
    (by decide) (by decide) (by decide) (by decide) (by decide)

/-- Counterexample to C8 as stated: 2 is prime and `0 ≡ 0 (mod 2)`, but
`mod_inv 0 2 = 0 ^ (2 − 2) % 2 = 1`, not 0. -/
theorem mod_inv_zero_mod_two_counterexample :
    Nat.Prime 2 ∧ (0 : Nat) % 2 = 0 ∧ mod_inv 0 2 = 1 ∧ mod_inv 0 2 ≠ 0 := by
  refine ⟨by decide, by decide, by decide, by decide⟩

/-- C8 (amended): `mod_inv(value, modulus)` computes
`value^(modulus−2) mod modulus`; for every prime `p` and `v ∈ [1, p−1]`,
`mod_inv(v, p) · v mod p = 1`; and for every prime `p > 2`, calling it with
`value ≡ 0 (mod p)` yields 0 (at `p = 2` and value 0 it yields 1 instead). -/
theorem mod_inv_spec_amended :
    (∀ value modulus : Nat, mod_inv value modulus = value ^ (modulus - 2) % modulus) ∧
    (∀ p v : Nat, Nat.Prime p → 1 ≤ v → v ≤ p - 1 → mod_inv v p * v % p = 1) ∧
    (∀ p v : Nat, Nat.Prime p → 2 < p → v % p = 0 → mod_inv v p = 0) := by
  refine ⟨fun _ _ => rfl, ?_, ?_⟩
  · intro p v hp h1 h2
    have hp2 : 2 ≤ p := hp.two_le
    have hvp : v < p := by omega
    have hnd : ¬ p ∣ v := fun hd => absurd (Nat.le_of_dvd (by omega) hd) (by omega)
    have hco : Nat.Coprime v p := Nat.coprime_comm.mp (hp.coprime_iff_not_dvd.mpr hnd)
    have heuler : v ^ (p - 1) ≡ 1 [MOD p] := by
      have h := Nat.ModEq.pow_totient hco
      rwa [Nat.totient_prime hp] at h
    have hstep : mod_inv v p * v ≡ v ^ (p - 1) [MOD p] := by
      have h := Nat.ModEq.mul_right v (Nat.mod_modEq (v ^ (p - 2)) p)
      have hpow : v ^ (p - 2) * v = v ^ (p - 1) := by
        rw [← pow_succ]
        congr 1
        omega
      rw [hpow] at h
      exact h
    have hone : mod_inv v p * v ≡ 1 [MOD p] := Nat.ModEq.trans hstep heuler
    have hfin : mod_inv v p * v % p = 1 % p := hone
    rwa [Nat.mod_eq_of_lt hp.one_lt] at hfin
  · intro p v hp h2 h0
    obtain ⟨t, ht⟩ : p ∣ v ^ (p - 2) := dvd_pow (Nat.dvd_of_mod_eq_zero h0) (by omega)
    rw [mod_inv, ht, Nat.mul_mod_right]

/-- Witness for C8: `mod_inv 3 17 · 3 mod 17 = 1` and `mod_inv 34 17 = 0`. -/
theorem mod_inv_spec_amended_witness :
    mod_inv 3 17 * 3 % 17 = 1 ∧ mod_inv 34 17 = 0 :=
  ⟨mod_inv_spec_amended.2.1 17 3 (by decide) (by decide) (by decide),
    mod_inv_spec_amended.2.2 17 34 (by decide) (by decide) (by decide)⟩

/-! ## Bridge lemmas between the embedded arithmetic and `ZMod p` -/

lemma natCast_mod_inv (p : Nat) [Fact (Nat.Prime p)] (h2 : 2 < p) (v : Nat) :
    ((mod_inv v p : Nat) : ZMod p) = (v : ZMod p)⁻¹ := by
  rw [mod_inv, ZMod.natCast_mod, Nat.cast_pow]
  by_cases hv : (v : ZMod p) = 0
  · rw [hv, zero_pow (by omega : p - 2 ≠ 0), inv_zero]
  · have hfer : (v : ZMod p) ^ (p - 1) = 1 := ZMod.pow_card_sub_one_eq_one hv
    have hmul : (v : ZMod p) * (v : ZMod p) ^ (p - 2) = 1 := by
      rw [mul_comm, ← pow_succ]
      have he : p - 2 + 1 = p - 1 := by omega
      rw [he, hfer]
    exact eq_inv_of_mul_eq_one_right hmul

lemma point_some_congr {R : Type} [CommRing R] {W : WeierstrassCurve.Affine R}
    {x y u v : R} (hx : x = u) (hy : y = v)
    (h : W.Nonsingular x y) (h2 : W.Nonsingular u v) :
    WeierstrassCurve.Affine.Point.some h = WeierstrassCurve.Affine.Point.some h2 := by
  subst hx
  subst hy
  rfl


lemma corr_pointToCurve {c : CurveData} (hp : 0 < c.prime_modulus)
    {P : CurvePoint} {A : (Wof c).Point} (h : Corr c P A) :
    P = pointToCurve A := by
  haveI : NeZero c.prime_modulus := ⟨hp.ne'⟩
  cases h with
  | infinity => rfl
  | affine x y hx hy h =>
    simp [pointToCurve, ZMod.val_natCast_of_lt hx, ZMod.val_natCast_of_lt hy]

lemma corr_right_unique {c : CurveData} (hp : 0 < c.prime_modulus)
    {P Q : CurvePoint} {A : (Wof c).Point}
    (h1 : Corr c P A) (h2 : Corr c Q A) : P = Q :=
  (corr_pointToCurve hp h1).trans (corr_pointToCurve hp h2).symm

lemma two_ne_zero_mod (p : Nat) [Fact (Nat.Prime p)] (h2 : 2 < p) :
    (2 : ZMod p) ≠ 0 := by
  have h : ¬ (((2 : Nat) : ZMod p) = 0) := by
    rw [ZMod.natCast_zmod_eq_zero_iff_dvd]
    intro hdvd
    exact absurd (Nat.le_of_dvd (by omega) hdvd) (by omega)
  intro h0
  apply h
  rw [Nat.cast_ofNat]
  exact h0

lemma natCast_ne_zero_of_lt {p y : Nat} (hy : y < p) (hy0 : y ≠ 0) :
    (y : ZMod p) ≠ 0 := by
  intro h
  exact hy0 (natCast_inj_of_lt hy (by omega) (by rw [h]; push_cast; ring))

lemma corr_tail {c : CurveData} [Fact (Nat.Prime c.prime_modulus)]
    (h2 : 2 < c.prime_modulus) (x1 y1 x2 y2 lam : Nat)
    (hns1 : (Wof c).Nonsingular (x1 : ZMod c.prime_modulus) (y1 : ZMod c.prime_modulus))
    (hns2 : (Wof c).Nonsingular (x2 : ZMod c.prime_modulus) (y2 : ZMod c.prime_modulus))
    (hxy : (x1 : ZMod c.prime_modulus) = (x2 : ZMod c.prime_modulus) →
      (y1 : ZMod c.prime_modulus) ≠
        (Wof c).negY (x2 : ZMod c.prime_modulus) (y2 : ZMod c.prime_modulus))
    (hlam : ((lam : Nat) : ZMod c.prime_modulus) =
      (Wof c).slope (x1 : ZMod c.prime_modulus) (x2 : ZMod c.prime_modulus)
        (y1 : ZMod c.prime_modulus) (y2 : ZMod c.prime_modulus)) :
    Corr c
      (CurvePoint.Affine
        (mod_sub (mod_sub (lam ^ 2 % c.prime_modulus) x1 c.prime_modulus) x2 c.prime_modulus)
        (mod_sub
          (lam *
              mod_sub x1
                (mod_sub (mod_sub (lam ^ 2 % c.prime_modulus) x1 c.prime_modulus) x2
                  c.prime_modulus)
                c.prime_modulus %
            c.prime_modulus)
          y1 c.prime_modulus))
      (WeierstrassCurve.Affine.Point.some
        (WeierstrassCurve.Affine.nonsingular_add hns1 hns2 hxy)) := by
  have hp0 : 0 < c.prime_modulus := by omega
  set p := c.prime_modulus with hpdef
  set x3 : Nat := mod_sub (mod_sub (lam ^ 2 % p) x1 p) x2 p with hx3def
  set y3 : Nat := mod_sub (lam * mod_sub x1 x3 p % p) y1 p with hy3def
  have hx3lt : x3 < p := mod_sub_lt _ _ _ hp0
  have hy3lt : y3 < p := mod_sub_lt _ _ _ hp0
  have hx3cast : ((x3 : Nat) : ZMod p) =
      (Wof c).addX (x1 : ZMod p) (x2 : ZMod p)
        ((Wof c).slope (x1 : ZMod p) (x2 : ZMod p) (y1 : ZMod p) (y2 : ZMod p)) := by
    rw [hx3def, natCast_mod_sub _ _ _ hp0, natCast_mod_sub _ _ _ hp0, ZMod.natCast_mod,
      Nat.cast_pow, hlam]
    simp only [WeierstrassCurve.Affine.addX, Wof]
    ring
  have hy3cast : ((y3 : Nat) : ZMod p) =
      (Wof c).addY (x1 : ZMod p) (x2 : ZMod p) (y1 : ZMod p)
        ((Wof c).slope (x1 : ZMod p) (x2 : ZMod p) (y1 : ZMod p) (y2 : ZMod p)) := by
    rw [hy3def, natCast_mod_sub _ _ _ hp0, ZMod.natCast_mod, Nat.cast_mul,
      natCast_mod_sub _ _ _ hp0, hlam, hx3cast]
    simp only [WeierstrassCurve.Affine.addY, WeierstrassCurve.Affine.negAddY,
      WeierstrassCurve.Affine.negY, WeierstrassCurve.Affine.addX, Wof]
    ring
  have hns3 : (Wof c).Nonsingular ((x3 : Nat) : ZMod p) ((y3 : Nat) : ZMod p) := by
    rw [hx3cast, hy3cast]
    exact WeierstrassCurve.Affine.nonsingular_add hns1 hns2 hxy
  have heq : WeierstrassCurve.Affine.Point.some hns3 =
      WeierstrassCurve.Affine.Point.some
        (WeierstrassCurve.Affine.nonsingular_add hns1 hns2 hxy) :=
    point_some_congr hx3cast hy3cast hns3 _
  rw [← heq]
  exact Corr.affine x3 y3 hx3lt hy3lt hns3

lemma slope_cast_double {c : CurveData} [Fact (Nat.Prime c.prime_modulus)]
    (h2 : 2 < c.prime_modulus) (x1 y1 : Nat)
    (hyneg : (y1 : ZMod c.prime_modulus) ≠
      (Wof c).negY (x1 : ZMod c.prime_modulus) (y1 : ZMod c.prime_modulus)) :
    (((3 * (x1 ^ 2 % c.prime_modulus) + c.a) % c.prime_modulus *
          mod_inv (2 * y1 % c.prime_modulus) c.prime_modulus %
        c.prime_modulus : Nat) : ZMod c.prime_modulus) =
      (Wof c).slope (x1 : ZMod c.prime_modulus) (x1 : ZMod c.prime_modulus)
        (y1 : ZMod c.prime_modulus) (y1 : ZMod c.prime_modulus) := by
  rw [WeierstrassCurve.Affine.slope_of_Y_ne rfl hyneg]
  rw [ZMod.natCast_mod, Nat.cast_mul, ZMod.natCast_mod, natCast_mod_inv _ h2, ZMod.natCast_mod]
  rw [div_eq_mul_inv]
  push_cast
  congr 1
  · rw [ZMod.natCast_mod]
    simp only [Wof]
    push_cast
    ring
  · congr 1
    simp only [Wof, WeierstrassCurve.Affine.negY]
    ring

lemma slope_cast_chord {c : CurveData} [Fact (Nat.Prime c.prime_modulus)]
    (h2 : 2 < c.prime_modulus) (x1 y1 x2 y2 : Nat)
    (hxne : (x1 : ZMod c.prime_modulus) ≠ (x2 : ZMod c.prime_modulus)) :
    ((mod_sub y2 y1 c.prime_modulus *
          mod_inv (mod_sub x2 x1 c.prime_modulus) c.prime_modulus %
        c.prime_modulus : Nat) : ZMod c.prime_modulus) =
      (Wof c).slope (x1 : ZMod c.prime_modulus) (x2 : ZMod c.prime_modulus)
        (y1 : ZMod c.prime_modulus) (y2 : ZMod c.prime_modulus) := by
  have hp0 : 0 < c.prime_modulus := by omega
  rw [WeierstrassCurve.Affine.slope_of_X_ne hxne]
  rw [ZMod.natCast_mod, Nat.cast_mul, natCast_mod_inv _ h2, natCast_mod_sub _ _ _ hp0,
    natCast_mod_sub _ _ _ hp0, div_eq_mul_inv]
  rw [show ((y1 : ZMod c.prime_modulus) - y2) = -((y2 : ZMod c.prime_modulus) - y1) by ring,
    show ((x1 : ZMod c.prime_modulus) - x2) = -((x2 : ZMod c.prime_modulus) - x1) by ring,
    inv_neg, neg_mul_neg]

lemma corr_add {c : CurveData} [Fact (Nat.Prime c.prime_modulus)]
    (h2 : 2 < c.prime_modulus) {P Q : CurvePoint} {A B : (Wof c).Point}
    (hP : Corr c P A) (hQ : Corr c Q B) :
    Corr c (add_two_points P Q c) (A + B) := by
  cases hP with
  | infinity =>
    have hAB : (WeierstrassCurve.Affine.Point.zero : (Wof c).Point) + B = B := zero_add B
    have hcode : add_two_points CurvePoint.Infinity Q c = Q := by
      cases Q <;> rfl
    rw [hAB, hcode]
    exact hQ
  | affine x1 y1 hx1 hy1 hns1 =>
    cases hQ with
    | infinity =>
      have hAB : WeierstrassCurve.Affine.Point.some hns1 +
          (WeierstrassCurve.Affine.Point.zero : (Wof c).Point) =
            WeierstrassCurve.Affine.Point.some hns1 := add_zero _
      rw [hAB]
      exact Corr.affine x1 y1 hx1 hy1 hns1
    | affine x2 y2 hx2 hy2 hns2 =>
      by_cases hxx : x1 = x2
      · subst hxx
        by_cases hyy : y1 = y2
        · subst hyy
          by_cases hy0 : y1 = 0
          · subst hy0
            have hmath : WeierstrassCurve.Affine.Point.some hns1 +
                WeierstrassCurve.Affine.Point.some hns2 = 0 := by
              apply WeierstrassCurve.Affine.Point.add_of_Y_eq rfl
              simp [WeierstrassCurve.Affine.negY, Wof]
            rw [hmath]
            have hcode : add_two_points (CurvePoint.Affine x1 0)
                (CurvePoint.Affine x1 0) c = CurvePoint.Infinity := by
              simp [add_two_points]
            rw [hcode]
            exact Corr.infinity
          · have hy1ne : (y1 : ZMod c.prime_modulus) ≠ 0 :=
              natCast_ne_zero_of_lt hy1 hy0
            have hyneg : (y1 : ZMod c.prime_modulus) ≠
                (Wof c).negY (x1 : ZMod c.prime_modulus) (y1 : ZMod c.prime_modulus) := by
              intro h
              simp only [WeierstrassCurve.Affine.negY, Wof, zero_mul, sub_zero] at h
              have h2y : (2 : ZMod c.prime_modulus) * (y1 : ZMod c.prime_modulus) = 0 := by
                linear_combination h
              rcases mul_eq_zero.mp h2y with h0 | h0
              · exact two_ne_zero_mod _ h2 h0
              · exact hy1ne h0
            have hmath := @WeierstrassCurve.Affine.Point.add_of_imp _ _ _ _ _ _ _
              hns1 hns2 (fun _ => hyneg)
            rw [hmath]
            simp only [add_two_points, slope_numerator, slope_denominator, hy0,
              eq_self_iff_true, not_true, and_false, if_false, and_self, if_true,
              and_true, ne_eq, not_false_iff]
            exact corr_tail h2 x1 y1 x1 y1 _ hns1 hns2 (fun _ => hyneg)
              (slope_cast_double h2 x1 y1 hyneg)
        · have hy12 : (y1 : ZMod c.prime_modulus) ≠ (y2 : ZMod c.prime_modulus) :=
            fun h => hyy (natCast_inj_of_lt hy1 hy2 h)
          have hyneg : (y1 : ZMod c.prime_modulus) =
              (Wof c).negY (x1 : ZMod c.prime_modulus) (y2 : ZMod c.prime_modulus) := by
            rcases WeierstrassCurve.Affine.Y_eq_of_X_eq hns1.1 hns2.1 rfl with h | h
            · exact absurd h hy12
            · exact h
          have hmath := @WeierstrassCurve.Affine.Point.add_of_Y_eq _ _ _ _ _ _ _
            hns1 hns2 rfl hyneg
          rw [hmath]
          have hcode : add_two_points (CurvePoint.Affine x1 y1)
              (CurvePoint.Affine x1 y2) c = CurvePoint.Infinity := by
            simp [add_two_points, hyy]
          rw [hcode]
          exact Corr.infinity
      · have hxne : (x1 : ZMod c.prime_modulus) ≠ (x2 : ZMod c.prime_modulus) :=
          fun h => hxx (natCast_inj_of_lt hx1 hx2 h)
        have hmath := @WeierstrassCurve.Affine.Point.add_of_imp _ _ _ _ _ _ _
          hns1 hns2 (fun h => absurd h hxne)
        rw [hmath]
        simp only [add_two_points, slope_numerator, slope_denominator, hxx,
          false_and, if_false]
        exact corr_tail h2 x1 y1 x2 y2 _ hns1 hns2 (fun h => absurd h hxne)
          (slope_cast_chord h2 x1 y1 x2 y2 hxne)

lemma corr_pubkey_loop {c : CurveData} [Fact (Nat.Prime c.prime_modulus)]
    (h2 : 2 < c.prime_modulus) :
    ∀ (fuel k : Nat) (result current : CurvePoint) (A B : (Wof c).Point),
      k ≤ fuel → Corr c result A → Corr c current B →
      Corr c (pubkey_loop c fuel k result current) (A + k • B) := by
  intro fuel
  induction fuel with
  | zero =>
    intro k r cur A B hk hA hB
    have hk0 : k = 0 := by omega
    subst hk0
    have hAB : A + (0 : Nat) • B = A := by rw [zero_nsmul, add_zero]
    rw [hAB]
    exact hA
  | succ f ih =>
    intro k r cur A B hk hA hB
    by_cases hk0 : k = 0
    · subst hk0
      have hAB : A + (0 : Nat) • B = A := by rw [zero_nsmul, add_zero]
      rw [hAB]
      simp only [pubkey_loop, if_pos rfl]
      exact hA
    · have hstep : pubkey_loop c (f + 1) k r cur =
          pubkey_loop c f (k / 2) (if k % 2 = 1 then add_two_points r cur c else r)
            (add_two_points cur cur c) := by
        simp only [pubkey_loop, if_neg hk0]
      rw [hstep]
      have hA2 : Corr c (if k % 2 = 1 then add_two_points r cur c else r)
          (A + (k % 2) • B) := by
        by_cases hb : k % 2 = 1
        · rw [if_pos hb, hb, one_nsmul]
          exact corr_add h2 hA hB
        · have hb0 : k % 2 = 0 := by omega
          rw [if_neg hb, hb0, zero_nsmul, add_zero]
          exact hA
      have hB2 : Corr c (add_two_points cur cur c) (B + B) := corr_add h2 hB hB
      have hk2 : k / 2 ≤ f := by omega
      have hres := ih (k / 2) _ _ _ _ hk2 hA2 hB2
      have harith : A + (k % 2) • B + (k / 2) • (B + B) = A + k • B := by
        rw [← two_nsmul, ← mul_nsmul, add_assoc, ← add_nsmul,
          show k % 2 + 2 * (k / 2) = k by omega]
      rw [harith] at hres
      exact hres

lemma corr_spec_repeated_add {c : CurveData} [Fact (Nat.Prime c.prime_modulus)]
    (h2 : 2 < c.prime_modulus) {G : CurvePoint} {GP : (Wof c).Point}
    (hG : Corr c G GP) :
    ∀ k, Corr c (spec_repeated_add c G k) (k • GP) := by
  intro k
  induction k with
  | zero =>
    rw [zero_nsmul]
    exact Corr.infinity
  | succ n ih =>
    rw [succ_nsmul]
    exact corr_add h2 ih hG

lemma pubkey_loop_current_infinity (c : CurveData) :
    ∀ (fuel k : Nat) (result : CurvePoint),
      pubkey_loop c fuel k result CurvePoint.Infinity = result := by
  intro fuel
  induction fuel with
  | zero => intro k r; rfl
  | succ f ih =>
    intro k r
    by_cases hk : k = 0
    · simp only [pubkey_loop, if_pos hk]
    · have ha : add_two_points r CurvePoint.Infinity c = r := by cases r <;> rfl
      have hb : add_two_points CurvePoint.Infinity CurvePoint.Infinity c =
          CurvePoint.Infinity := rfl
      simp only [pubkey_loop, if_neg hk, ha, hb, ite_self]
      exact ih _ _

lemma spec_repeated_add_y_zero (c : CurveData) (gx : Nat) :
    ∀ k, spec_repeated_add c (CurvePoint.Affine gx 0) k =
      (if k % 2 = 1 then CurvePoint.Affine gx 0 else CurvePoint.Infinity) := by
  intro k
  induction k with
  | zero => simp [spec_repeated_add]
  | succ n ih =>
    have hstep : spec_repeated_add c (CurvePoint.Affine gx 0) (n + 1) =
        add_two_points (spec_repeated_add c (CurvePoint.Affine gx 0) n)
          (CurvePoint.Affine gx 0) c := rfl
    rw [hstep, ih]
    by_cases hb : n % 2 = 1
    · rw [if_pos hb, if_neg (by omega : ¬ (n + 1) % 2 = 1)]
      simp [add_two_points]
    · rw [if_neg hb, if_pos (by omega : (n + 1) % 2 = 1)]
      rfl

/-- C2 (amended): over an odd prime modulus, with `Infinity` as identity
and a generator that is an affine point on the curve with coordinates
reduced modulo `p`, the double-and-add `calculate_public_key(k)` equals the
`k`-fold repeated `add_two_points` of the generator with itself, for every
scalar `k ≥ 1`. -/
theorem calculate_public_key_eq_spec_repeated_add
    (c : CurveData) (gx gy k : Nat)
    (hp : Nat.Prime c.prime_modulus) (h2 : 2 < c.prime_modulus)
    (hid : c.identity = CurvePoint.Infinity)
    (hgen : c.generator_point = CurvePoint.Affine gx gy)
    (hgx : gx < c.prime_modulus) (hgy : gy < c.prime_modulus)
    (honc : gy ^ 2 ≡ gx ^ 3 + c.a * gx + c.b [MOD c.prime_modulus])
    (hk : 1 ≤ k) :
    calculate_public_key c k = spec_repeated_add c c.generator_point k := by
  haveI : Fact (Nat.Prime c.prime_modulus) := ⟨hp⟩
  have hEq : (Wof c).Equation (gx : ZMod c.prime_modulus) (gy : ZMod c.prime_modulus) := by
    rw [WeierstrassCurve.Affine.equation_iff]
    have hc := (ZMod.natCast_eq_natCast_iff _ _ _).mpr honc
    push_cast at hc
    simp only [Wof]
    linear_combination hc
  unfold calculate_public_key
  rw [hid, hgen]
  by_cases hns : (Wof c).Nonsingular (gx : ZMod c.prime_modulus) (gy : ZMod c.prime_modulus)
  · have hG : Corr c (CurvePoint.Affine gx gy) (WeierstrassCurve.Affine.Point.some hns) :=
      Corr.affine gx gy hgx hgy hns
    have hcalc := corr_pubkey_loop h2 k k CurvePoint.Infinity (CurvePoint.Affine gx gy)
      WeierstrassCurve.Affine.Point.zero (WeierstrassCurve.Affine.Point.some hns)
      le_rfl Corr.infinity hG
    have hz : (WeierstrassCurve.Affine.Point.zero : (Wof c).Point) +
        k • WeierstrassCurve.Affine.Point.some hns =
          k • WeierstrassCurve.Affine.Point.some hns := zero_add _
    rw [hz] at hcalc
    have hrep := corr_spec_repeated_add h2 hG k
    exact corr_right_unique (by omega) hcalc hrep
  · have hgy0 : gy = 0 := by
      rw [WeierstrassCurve.Affine.nonsingular_iff'] at hns
      push_neg at hns
      obtain ⟨h1, hy2⟩ := hns hEq
      simp only [Wof, zero_mul, add_zero] at hy2
      have h2y : (2 : ZMod c.prime_modulus) * (gy : ZMod c.prime_modulus) = 0 := by
        linear_combination hy2
      rcases mul_eq_zero.mp h2y with h0 | h0
      · exact absurd h0 (two_ne_zero_mod _ h2)
      · exact natCast_inj_of_lt hgy (by omega) (by rw [h0]; push_cast; ring)
    subst hgy0
    obtain ⟨f, rfl⟩ : ∃ f, k = f + 1 := ⟨k - 1, by omega⟩
    have hdg : add_two_points (CurvePoint.Affine gx 0) (CurvePoint.Affine gx 0) c =
        CurvePoint.Infinity := by
      simp [add_two_points]
    have hstep : pubkey_loop c (f + 1) (f + 1) CurvePoint.Infinity
        (CurvePoint.Affine gx 0) =
          pubkey_loop c f ((f + 1) / 2)
            (if (f + 1) % 2 = 1 then
              add_two_points CurvePoint.Infinity (CurvePoint.Affine gx 0) c
            else CurvePoint.Infinity)
            (add_two_points (CurvePoint.Affine gx 0) (CurvePoint.Affine gx 0) c) := by
      simp only [pubkey_loop, if_neg (Nat.succ_ne_zero f)]
    rw [hstep, hdg, pubkey_loop_current_infinity, spec_repeated_add_y_zero]
    rfl

/-- Counterexample to C2 as stated: `cex2` is a curve instance whose
modulus 2 is prime, whose generator `(0, 1)` is an affine point on the
curve with reduced coordinates (and `4a³ + 27b² ≢ 0`), yet for the scalar
`k = 4` the double-and-add result differs from the 4-fold repeated add
(`Infinity` versus `(1, 0)`). -/
theorem calculate_public_key_repeated_add_counterexample :
    Nat.Prime cex2.prime_modulus ∧
    cex2.identity = CurvePoint.Infinity ∧
    cex2.generator_point = CurvePoint.Affine 0 1 ∧
    (0 : Nat) < cex2.prime_modulus ∧ (1 : Nat) < cex2.prime_modulus ∧
    (1 : Nat) ^ 2 ≡ 0 ^ 3 + cex2.a * 0 + cex2.b [MOD cex2.prime_modulus] ∧
    (4 * cex2.a ^ 3 + 27 * cex2.b ^ 2) % cex2.prime_modulus ≠ 0 ∧
    1 ≤ 4 ∧
    calculate_public_key cex2 4 ≠ spec_repeated_add cex2 cex2.generator_point 4 := by
  decide

/-- Witness for C2 on the toy curve `p = 17`, `a = 2`, `b = 2` with
generator `(5, 1)`: `calculate_public_key 3 = add(add(G,G), G)`. -/
theorem calculate_public_key_eq_spec_repeated_add_witness :
    calculate_public_key c17 3 = spec_repeated_add c17 c17.generator_point 3 :=
  calculate_public_key_eq_spec_repeated_add c17 5 1 3 (by decide) (by decide) rfl rfl
    (by decide) (by decide) (by decide) (by decide)
